import Mathlib

/-!
Verification of the lock-free stock matching engine (`src/lockfreestocks.c`).

The development is a shallow sequential embedding of the C program.  The
C queue counters are C `int`s that only ever increase; the program assumes
they never overflow (spec: "Counter overflow is out of scope"), so they are
modelled as `Nat`.  Prices and quantities are C `int` / integer-valued
`double`; the price is generated and compared as an integer value in the
program, so it is modelled as `Int` (the cast `(int)price` is the identity
on integer-valued prices).  The enqueue CAS loop and the publish spin are
collapsed to their sequential execution: with a single caller the CAS
succeeds on the first attempt and the publish spin finds `tail = pos`
immediately.
-/

set_option maxRecDepth 100000

namespace LockFreeStocks

/-- NUM_TICKERS from the C source. -/
def NUM_TICKERS : Int := 1024

/-- QUEUE_CAPACITY from the C source. -/
def QUEUE_CAPACITY : Nat := 128

/-- The `Order` struct: type is the C char tag, and the integer-valued
price field is modelled as `Int` (see the file comment). -/
structure Order where
  type : Char
  ticker : Int
  quantity : Int
  price : Int
deriving DecidableEq

/-- Stand-in for the indeterminate contents of an uninitialised slot of the
C backing array; the refinement theorems show only written slots are read. -/
def defaultOrder : Order := ⟨'B', 0, 0, 0⟩

/-- The `MinimalQueue` struct.  The backing array is a list of length
`capacity`; `head`, `tail` and `tailReservation` are the three counters. -/
structure MinimalQueue where
  orders : List Order
  head : Nat
  tail : Nat
  tailReservation : Nat
  capacity : Nat
deriving DecidableEq

/-- `initQueue`: counters start at zero. -/
def initQueue (capacity : Nat) : MinimalQueue :=
  { orders := List.replicate capacity defaultOrder
    head := 0
    tail := 0
    tailReservation := 0
    capacity := capacity }

/-- `enqueue`, sequential collapse.  The full test is the C test
`(pos - head) >= capacity`; on failure nothing is touched.  Otherwise the
CAS reserves slot `pos = tailReservation`, the order is written at
`pos % capacity`, and the publish spin (which in a sequential run finds
`tail = pos` at once) advances `tail` to `pos + 1`. -/
def enqueue (q : MinimalQueue) (order : Order) : Bool × MinimalQueue :=
  if q.capacity ≤ q.tailReservation - q.head then
    (false, q)
  else
    (true,
      { q with
          orders := q.orders.set (q.tailReservation % q.capacity) order
          tailReservation := q.tailReservation + 1
          tail := q.tailReservation + 1 })

/-- `dequeue`: empty iff `head = tail`; otherwise read slot
`head % capacity` and advance `head`. -/
def dequeue (q : MinimalQueue) : Option Order × MinimalQueue :=
  if q.head = q.tail then
    (none, q)
  else
    (some (q.orders.getD (q.head % q.capacity) defaultOrder),
      { q with head := q.head + 1 })

/-- Occupancy as the reservation check sees it: `tailReservation - head`. -/
def occupancy (q : MinimalQueue) : Nat :=
  q.tailReservation - q.head

/-- Abstraction function: the committed, not yet consumed items of the ring
buffer, i.e. slots `head, head+1, ..., tail-1` taken modulo capacity. -/
def absList (q : MinimalQueue) : List Order :=
  (List.range (q.tail - q.head)).map
    (fun i => q.orders.getD ((q.head + i) % q.capacity) defaultOrder)

/-- The counter chain invariant claimed by the spec:
`head <= tail <= reserved <= head + capacity`. -/
def counterInv (q : MinimalQueue) : Prop :=
  q.head ≤ q.tail ∧ q.tail ≤ q.tailReservation ∧
    q.tailReservation ≤ q.head + q.capacity

instance (q : MinimalQueue) : Decidable (counterInv q) := by
  unfold counterInv; infer_instance

/-- States reachable by sequential runs: the counter chain, complete
publication (`tail = tailReservation`, every reservation has committed),
and a backing array of the declared capacity. -/
def SeqInv (q : MinimalQueue) : Prop :=
  q.head ≤ q.tail ∧ q.tail = q.tailReservation ∧
    q.tailReservation ≤ q.head + q.capacity ∧ q.orders.length = q.capacity

instance (q : MinimalQueue) : Decidable (SeqInv q) := by
  unfold SeqInv; infer_instance

/-- A sequence of enqueue calls (results discarded, as the C matching code
does). -/
def enqueueAll (q : MinimalQueue) (os : List Order) : MinimalQueue :=
  os.foldl (fun acc o => (enqueue acc o).2) q

/-- Fuelled drain loop: the C `while (dequeue(...))` drain.  The fuel is an
upper bound on the number of committed items, so the loop always stops by
hitting the empty check, exactly as the C loop does. -/
def drainAux : Nat → MinimalQueue → List Order × MinimalQueue
  | 0, q => ([], q)
  | n + 1, q =>
    match (dequeue q).1 with
    | none => ([], (dequeue q).2)
    | some o =>
      let r := drainAux n (dequeue q).2
      (o :: r.1, r.2)

/-- Drain a queue to empty, as `matchOrders` does for both sides. -/
def drainQueue (q : MinimalQueue) : List Order × MinimalQueue :=
  drainAux (q.tail - q.head) q

/-- The global order book: one buy and one sell queue per ticker.  The C
arrays are indexed without a bounds check; claims are settled at in-range
tickers only (an out-of-range C index is undefined behaviour). -/
structure OrderBook where
  buyQueues : Int → MinimalQueue
  sellQueues : Int → MinimalQueue

/-- `initOrderBook`: every ticker gets two queues of capacity
QUEUE_CAPACITY. -/
def initOrderBook : OrderBook :=
  { buyQueues := fun _ => initQueue QUEUE_CAPACITY
    sellQueues := fun _ => initQueue QUEUE_CAPACITY }

/-- Which console line `addOrder` prints: the success line or the
"Queue for ticker ... is full. Order dropped." line. -/
inductive Report where
  | added : Report
  | queueFull : Report
deriving DecidableEq

/-- `addOrder`: build the order, route by type tag (no validation of
ticker, quantity or price anywhere), report by the success flag.  An
order whose type is neither B nor S leaves `success` false and so is
reported through the queue-full line. -/
def addOrder (book : OrderBook) (orderType : Char) (ticker : Int)
    (quantity : Int) (price : Int) : Report × OrderBook :=
  let order : Order := ⟨orderType, ticker, quantity, price⟩
  if orderType = 'B' then
    let r := enqueue (book.buyQueues ticker) order
    ((if r.1 then Report.added else Report.queueFull),
      { book with
          buyQueues := fun t => if t = ticker then r.2 else book.buyQueues t })
  else if orderType = 'S' then
    let r := enqueue (book.sellQueues ticker) order
    ((if r.1 then Report.added else Report.queueFull),
      { book with
          sellQueues := fun t => if t = ticker then r.2 else book.sellQueues t })
  else
    (Report.queueFull, book)

/-- A matched crossing, as printed by the C code: ticker, matched quantity,
and the sell order price. -/
structure Trade where
  ticker : Int
  quantity : Int
  price : Int
deriving DecidableEq

/-- The integer price domain the bucket sorts iterate over: 10..1000
ascending. -/
def priceRange : List Int :=
  (List.range 991).map (fun k : Nat => 10 + (k : Int))

/-- Bucket sort of sell orders, ascending: for each price 10..1000 collect,
in original relative order, the orders with that integer price and positive
quantity. -/
def bucketAsc (orders : List Order) : List Order :=
  priceRange.flatMap
    (fun p => orders.filter (fun o => o.price == p && decide (0 < o.quantity)))

/-- Bucket sort of buy orders, descending: prices iterated 1000 down to
10. -/
def bucketDesc (orders : List Order) : List Order :=
  priceRange.reverse.flatMap
    (fun p => orders.filter (fun o => o.price == p && decide (0 < o.quantity)))

/-- The matched quantity of a crossing pair: the C ternary
`(buy.quantity < sell.quantity) ? buy.quantity : sell.quantity`. -/
def matchedQty (b s : Order) : Int :=
  if b.quantity < s.quantity then b.quantity else s.quantity

/-- The two-pointer crossing loop, fuelled (one unit of fuel per loop
iteration; each iteration removes at least one order, so
`buys.length + sells.length` fuel is enough).  The in-place array updates
of the C loop are modelled by returning the still-live suffixes of both
arrays: entries the pointers moved past all have quantity exactly zero and
are dropped, the entry at a pointer carries its updated quantity.  The
trade record carries the matched quantity and the sell order price, as the
printf does. -/
def crossLoop (ticker : Int) :
    Nat → List Order → List Order → List Trade × List Order × List Order
  | _, [], sells => ([], [], sells)
  | _, b :: bs, [] => ([], b :: bs, [])
  | 0, buys, sells => ([], buys, sells)
  | n + 1, b :: bs, s :: ss =>
    if s.price ≤ b.price then
      let r := crossLoop ticker n
        (if b.quantity - matchedQty b s = 0 then bs
          else { b with quantity := b.quantity - matchedQty b s } :: bs)
        (if s.quantity - matchedQty b s = 0 then ss
          else { s with quantity := s.quantity - matchedQty b s } :: ss)
      (⟨ticker, matchedQty b s, s.price⟩ :: r.1, r.2)
    else
      ([], b :: bs, s :: ss)

/-- The re-publish loop of `matchOrders`: enqueue every order with positive
quantity, discarding the boolean result exactly as the C code does. -/
def republishQueue (q : MinimalQueue) (rs : List Order) : MinimalQueue :=
  rs.foldl (fun acc o => if 0 < o.quantity then (enqueue acc o).2 else acc) q

/-- `matchOrders` for one ticker, at the level of its two channels: drain
both sides; if either side drained empty, re-enqueue everything unchanged
and emit no trade; otherwise bucket-sort, cross, and re-publish the
positive remainders.  The returned trade list is the complete observable
output of the pass (the C function prints one line per trade and returns
nothing else). -/
def matchOrdersQ (ticker : Int) (bq sq : MinimalQueue) :
    List Trade × MinimalQueue × MinimalQueue :=
  let bd := drainQueue bq
  let sd := drainQueue sq
  if bd.1.isEmpty || sd.1.isEmpty then
    ([], enqueueAll bd.2 bd.1, enqueueAll sd.2 sd.1)
  else
    let sortedSell := bucketAsc sd.1
    let sortedBuy := bucketDesc bd.1
    let r := crossLoop ticker (sortedBuy.length + sortedSell.length)
      sortedBuy sortedSell
    (r.1, republishQueue bd.2 r.2.1, republishQueue sd.2 r.2.2)

/-- `matchOrders` at the order-book level: run the pass on the two channels
of `ticker`; all other channels are left as they were. -/
def matchOrders (book : OrderBook) (ticker : Int) : List Trade × OrderBook :=
  let r := matchOrdersQ ticker (book.buyQueues ticker) (book.sellQueues ticker)
  (r.1,
    { buyQueues := fun t => if t = ticker then r.2.1 else book.buyQueues t
      sellQueues := fun t => if t = ticker then r.2.2 else book.sellQueues t })

/-- Total quantity of a list of orders. -/
def sumQty (l : List Order) : Int :=
  (l.map (fun o => o.quantity)).sum

/-- Total matched quantity of a list of trades. -/
def sumTradeQty (l : List Trade) : Int :=
  (l.map (fun t => t.quantity)).sum

/-- One queue operation of a sequential enqueue/dequeue run. -/
inductive QueueOp where
  | enq : Order → QueueOp
  | deq : QueueOp

/-- Run a sequence of queue operations, collecting the accepted items (the
enqueues that returned true) and the dequeued items, each in order. -/
def runOps : MinimalQueue → List QueueOp → MinimalQueue × List Order × List Order
  | q, [] => (q, [], [])
  | q, QueueOp.enq o :: rest =>
    let step := enqueue q o
    let r := runOps step.2 rest
    (r.1, (if step.1 then [o] else []) ++ r.2.1, r.2.2)
  | q, QueueOp.deq :: rest =>
    let step := dequeue q
    let r := runOps step.2 rest
    (r.1, r.2.1,
      (match step.1 with | none => [] | some o => [o]) ++ r.2.2)

/-- Buy channel of the C1 scenario: holds (price 100, qty 20) then
(price 90, qty 10), in that dequeue order. -/
def buyQ0 : MinimalQueue :=
  enqueueAll (initQueue QUEUE_CAPACITY) [⟨'B', 0, 20, 100⟩, ⟨'B', 0, 10, 90⟩]

/-- Sell channel of the C1 scenario: holds (price 95, qty 15) then
(price 100, qty 25). -/
def sellQ0 : MinimalQueue :=
  enqueueAll (initQueue QUEUE_CAPACITY) [⟨'S', 0, 15, 95⟩, ⟨'S', 0, 25, 100⟩]

/-- A full channel of capacity QUEUE_CAPACITY (occupancy = capacity), the
state a channel has when concurrent producers refill it between the drain
and the re-publish phases of a pass. -/
def fullQ : MinimalQueue :=
  { orders := List.replicate QUEUE_CAPACITY defaultOrder
    head := 0
    tail := QUEUE_CAPACITY
    tailReservation := QUEUE_CAPACITY
    capacity := QUEUE_CAPACITY }

/-- An order book whose only resident order is one sell at ticker 0 (buy
side empty there): the empty-side scenario. -/
def book1 : OrderBook := (addOrder initOrderBook 'S' 0 5 100).2

/-- Buy channel holding a single in-range order, for the conservation
scenario. -/
def buyQ2 : MinimalQueue :=
  enqueueAll (initQueue QUEUE_CAPACITY) [⟨'B', 0, 20, 100⟩]

/-- Sell channel holding a single in-range order, for the conservation
scenario. -/
def sellQ2 : MinimalQueue :=
  enqueueAll (initQueue QUEUE_CAPACITY) [⟨'S', 0, 15, 95⟩]

/-- Buy channel holding one in-range order and one order priced below 10,
for the silent-drop scenario. -/
def buyQ3 : MinimalQueue :=
  enqueueAll (initQueue QUEUE_CAPACITY) [⟨'B', 0, 20, 100⟩, ⟨'B', 0, 7, 5⟩]

/-- Sell channel holding a single in-range order, for the silent-drop
scenario. -/
def sellQ3 : MinimalQueue :=
  enqueueAll (initQueue QUEUE_CAPACITY) [⟨'S', 0, 15, 95⟩]

/-! Queue refinement lemmas. -/

theorem absList_length (q : MinimalQueue) :
    (absList q).length = q.tail - q.head := by
  simp [absList]

theorem add_mod_inj {cap head i j : Nat} (hi : i < cap) (hj : j < cap)
    (h : (head + i) % cap = (head + j) % cap) : i = j := by
  have h2 : i ≡ j [MOD cap] := Nat.ModEq.add_left_cancel' head h
  have h3 : i % cap = j % cap := h2
  rwa [Nat.mod_eq_of_lt hi, Nat.mod_eq_of_lt hj] at h3

theorem enqueue_fail (q : MinimalQueue) (o : Order)
    (h : (enqueue q o).1 = false) : (enqueue q o).2 = q := by
  unfold enqueue at h ⊢
  by_cases hc : q.capacity ≤ q.tailReservation - q.head
  · rw [if_pos hc]
  · rw [if_neg hc] at h
    simp at h

theorem absList_enqueue (q : MinimalQueue) (o : Order) (hq : SeqInv q)
    (hlt : occupancy q < q.capacity) :
    (enqueue q o).1 = true
    ∧ absList (enqueue q o).2 = absList q ++ [o]
    ∧ SeqInv (enqueue q o).2
    ∧ (enqueue q o).2.head = q.head
    ∧ (enqueue q o).2.capacity = q.capacity
    ∧ occupancy (enqueue q o).2 = occupancy q + 1 := by
  obtain ⟨h1, h2, h3, h4⟩ := hq
  unfold occupancy at hlt
  have hcap : 0 < q.capacity := by omega
  have hne : ¬ q.capacity ≤ q.tailReservation - q.head := by omega
  have henq : enqueue q o = (true,
      { q with
          orders := q.orders.set (q.tailReservation % q.capacity) o
          tailReservation := q.tailReservation + 1
          tail := q.tailReservation + 1 }) := by
    unfold enqueue
    rw [if_neg hne]
  rw [henq]
  refine ⟨rfl, ?_, ?_, rfl, rfl, ?_⟩
  case refine_2 =>
    unfold SeqInv
    dsimp only
    exact ⟨by omega, rfl, by omega, by simpa using h4⟩
  case refine_3 =>
    unfold occupancy
    dsimp only
    omega
  unfold absList
  dsimp only
  have hocc : q.tail - q.head < q.capacity := by omega
  have htail : q.tailReservation + 1 - q.head = (q.tail - q.head) + 1 := by omega
  have hres : q.tailReservation % q.capacity
      = (q.head + (q.tail - q.head)) % q.capacity := by
    congr 1; omega
  rw [htail, List.range_succ, List.map_append]
  congr 1
  · apply List.map_congr_left
    intro i hi
    have hi' : i < q.tail - q.head := List.mem_range.mp hi
    have hmodne : q.tailReservation % q.capacity ≠ (q.head + i) % q.capacity := by
      rw [hres]
      intro hcontra
      have := add_mod_inj hocc (Nat.lt_trans hi' hocc) hcontra
      omega
    simp [List.getD_eq_getElem?_getD, List.getElem?_set_ne hmodne]
  · simp only [List.map_cons, List.map_nil]
    rw [← hres]
    have hlt2 : q.tailReservation % q.capacity < q.orders.length := by
      rw [h4]; exact Nat.mod_lt _ hcap
    simp [List.getD_eq_getElem?_getD, List.getElem?_set_self hlt2]

theorem absList_enqueueAll (os : List Order) (q : MinimalQueue) (hq : SeqInv q)
    (hlen : occupancy q + os.length ≤ q.capacity) :
    absList (enqueueAll q os) = absList q ++ os
    ∧ SeqInv (enqueueAll q os)
    ∧ (enqueueAll q os).capacity = q.capacity
    ∧ occupancy (enqueueAll q os) = occupancy q + os.length := by
  induction os generalizing q with
  | nil => exact ⟨by simp [enqueueAll], hq, rfl, by simp [enqueueAll]⟩
  | cons o os ih =>
    have hlt : occupancy q < q.capacity := by
      simp only [List.length_cons] at hlen; omega
    obtain ⟨-, habs, hin, -, hcap, hocc⟩ := absList_enqueue q o hq hlt
    have hstep : enqueueAll q (o :: os) = enqueueAll (enqueue q o).2 os := rfl
    rw [hstep]
    obtain ⟨a1, a2, a3, a4⟩ := ih (enqueue q o).2 hin
      (by rw [hocc, hcap]; simp only [List.length_cons] at hlen; omega)
    refine ⟨by rw [a1, habs]; simp, a2, by rw [a3, hcap], ?_⟩
    rw [a4, hocc]
    simp only [List.length_cons]
    omega

theorem absList_nil_iff (q : MinimalQueue) (hq : SeqInv q) :
    absList q = [] ↔ q.head = q.tail := by
  obtain ⟨h1, -, -, -⟩ := hq
  rw [← List.length_eq_zero, absList_length]
  omega

theorem absList_dequeue (q : MinimalQueue) (hq : SeqInv q)
    (h : ¬ q.head = q.tail) :
    (dequeue q).1 = some (q.orders.getD (q.head % q.capacity) defaultOrder)
    ∧ absList q
        = q.orders.getD (q.head % q.capacity) defaultOrder
            :: absList (dequeue q).2
    ∧ SeqInv (dequeue q).2
    ∧ (dequeue q).2.capacity = q.capacity
    ∧ (dequeue q).2.orders = q.orders
    ∧ (dequeue q).2.tail = q.tail
    ∧ occupancy (dequeue q).2 + 1 = occupancy q := by
  obtain ⟨h1, h2, h3, h4⟩ := hq
  have hlt : q.head < q.tail := by omega
  have hde : dequeue q = (some (q.orders.getD (q.head % q.capacity) defaultOrder),
      { q with head := q.head + 1 }) := by
    unfold dequeue
    rw [if_neg h]
  rw [hde]
  refine ⟨rfl, ?_, ?_, rfl, rfl, rfl, ?_⟩
  case refine_2 =>
    unfold SeqInv
    dsimp only
    exact ⟨by omega, h2, by omega, h4⟩
  case refine_3 =>
    unfold occupancy
    dsimp only
    omega
  unfold absList
  dsimp only
  have hk : q.tail - q.head = (q.tail - (q.head + 1)) + 1 := by omega
  rw [hk, List.range_succ_eq_map, List.map_cons, List.map_map]
  refine congrArg₂ List.cons ?_ ?_
  · norm_num
  · apply List.map_congr_left
    intro i _
    simp only [Function.comp_apply]
    have harg : q.head + Nat.succ i = q.head + 1 + i := by omega
    rw [harg]

theorem drainAux_spec (n : Nat) : ∀ q : MinimalQueue, SeqInv q →
    (absList q).length ≤ n →
    (drainAux n q).1 = absList q
    ∧ SeqInv (drainAux n q).2
    ∧ absList (drainAux n q).2 = []
    ∧ (drainAux n q).2.capacity = q.capacity
    ∧ occupancy (drainAux n q).2 = 0 := by
  induction n with
  | zero =>
    intro q hq hlen
    have habs : absList q = [] := by
      cases habs : absList q with
      | nil => rfl
      | cons a l => rw [habs] at hlen; simp at hlen
    have hocc : occupancy q = 0 := by
      obtain ⟨-, h2, -, -⟩ := hq
      have := absList_length q
      rw [habs] at this
      unfold occupancy
      simp at this
      omega
    exact ⟨habs.symm, hq, habs, rfl, hocc⟩
  | succ n ih =>
    intro q hq hlen
    by_cases h : q.head = q.tail
    · have habs : absList q = [] := (absList_nil_iff q hq).mpr h
      have hde : dequeue q = (none, q) := by simp [dequeue, if_pos h]
      have hocc : occupancy q = 0 := by
        obtain ⟨-, h2, -, -⟩ := hq
        unfold occupancy
        omega
      simp only [drainAux, hde]
      exact ⟨habs.symm, hq, habs, by trivial, hocc⟩
    · obtain ⟨hsome, hcons, hin, hcap, -, -, -⟩ := absList_dequeue q hq h
      have hlen2 : (absList (dequeue q).2).length ≤ n := by
        rw [hcons] at hlen
        simp only [List.length_cons] at hlen
        omega
      obtain ⟨i1, i2, i3, i4, i5⟩ := ih (dequeue q).2 hin hlen2
      simp only [drainAux, hsome]
      exact ⟨by rw [hcons, i1], i2, i3, by rw [i4, hcap], i5⟩

theorem drainQueue_spec (q : MinimalQueue) (hq : SeqInv q) :
    (drainQueue q).1 = absList q
    ∧ SeqInv (drainQueue q).2
    ∧ absList (drainQueue q).2 = []
    ∧ (drainQueue q).2.capacity = q.capacity
    ∧ occupancy (drainQueue q).2 = 0 := by
  unfold drainQueue
  exact drainAux_spec (q.tail - q.head) q hq (by rw [absList_length])

/-! Matching-engine lemmas. -/

theorem matchedQty_le (b s : Order) :
    matchedQty b s ≤ b.quantity ∧ matchedQty b s ≤ s.quantity
    ∧ (b.quantity - matchedQty b s = 0 ∨ s.quantity - matchedQty b s = 0) := by
  unfold matchedQty
  by_cases h : b.quantity < s.quantity
  · rw [if_pos h]; omega
  · rw [if_neg h]; omega

theorem crossLoop_conserve (ticker : Int) :
    ∀ (n : Nat) (buys sells : List Order),
    sumQty buys + sumQty sells
      = sumQty (crossLoop ticker n buys sells).2.1
        + sumQty (crossLoop ticker n buys sells).2.2
        + 2 * sumTradeQty (crossLoop ticker n buys sells).1 := by
  intro n
  induction n with
  | zero =>
    intro buys sells
    match buys, sells with
    | [], sells => simp [crossLoop, sumQty, sumTradeQty]
    | b :: bs, [] => simp [crossLoop, sumQty, sumTradeQty]
    | b :: bs, s :: ss => simp [crossLoop, sumQty, sumTradeQty]
  | succ n ih =>
    intro buys sells
    match buys, sells with
    | [], sells => simp [crossLoop, sumQty, sumTradeQty]
    | b :: bs, [] => simp [crossLoop, sumQty, sumTradeQty]
    | b :: bs, s :: ss =>
      by_cases hp : s.price ≤ b.price
      · have hb1 : sumQty (if b.quantity - matchedQty b s = 0 then bs
            else { b with quantity := b.quantity - matchedQty b s } :: bs)
            = b.quantity - matchedQty b s + sumQty bs := by
          by_cases hz : b.quantity - matchedQty b s = 0
          · rw [if_pos hz, hz]; omega
          · rw [if_neg hz]; simp [sumQty]
        have hs1 : sumQty (if s.quantity - matchedQty b s = 0 then ss
            else { s with quantity := s.quantity - matchedQty b s } :: ss)
            = s.quantity - matchedQty b s + sumQty ss := by
          by_cases hz : s.quantity - matchedQty b s = 0
          · rw [if_pos hz, hz]; omega
          · rw [if_neg hz]; simp [sumQty]
        have hrec := ih
          (if b.quantity - matchedQty b s = 0 then bs
            else { b with quantity := b.quantity - matchedQty b s } :: bs)
          (if s.quantity - matchedQty b s = 0 then ss
            else { s with quantity := s.quantity - matchedQty b s } :: ss)
        rw [hb1, hs1] at hrec
        simp only [sumQty, sumTradeQty, List.map_cons, List.sum_cons] at hrec ⊢
        simp only [crossLoop, if_pos hp]
        simp only [sumQty, sumTradeQty, List.map_cons, List.sum_cons]
        omega
      · simp only [crossLoop, if_neg hp]
        simp [sumTradeQty]

theorem crossLoop_pos (ticker : Int) :
    ∀ (n : Nat) (buys sells : List Order),
    (∀ o ∈ buys, 0 < o.quantity) → (∀ o ∈ sells, 0 < o.quantity) →
    (∀ o ∈ (crossLoop ticker n buys sells).2.1, 0 < o.quantity)
    ∧ (∀ o ∈ (crossLoop ticker n buys sells).2.2, 0 < o.quantity) := by
  intro n
  induction n with
  | zero =>
    intro buys sells hb hs
    match buys, sells with
    | [], sells => exact ⟨by simp [crossLoop], by simpa [crossLoop] using hs⟩
    | b :: bs, [] => exact ⟨by simpa [crossLoop] using hb, by simp [crossLoop]⟩
    | b :: bs, s :: ss => exact ⟨by simpa [crossLoop] using hb, by simpa [crossLoop] using hs⟩
  | succ n ih =>
    intro buys sells hb hs
    match buys, sells with
    | [], sells => exact ⟨by simp [crossLoop], by simpa [crossLoop] using hs⟩
    | b :: bs, [] => exact ⟨by simpa [crossLoop] using hb, by simp [crossLoop]⟩
    | b :: bs, s :: ss =>
      by_cases hp : s.price ≤ b.price
      · obtain ⟨hm1, hm2, -⟩ := matchedQty_le b s
        have hb1 : ∀ o ∈ (if b.quantity - matchedQty b s = 0 then bs
            else { b with quantity := b.quantity - matchedQty b s } :: bs),
            0 < o.quantity := by
          by_cases hz : b.quantity - matchedQty b s = 0
          · rw [if_pos hz]
            intro o ho
            exact hb o (List.mem_cons_of_mem b ho)
          · rw [if_neg hz]
            intro o ho
            rcases List.mem_cons.mp ho with h | h
            · rw [h]; dsimp only; omega
            · exact hb o (List.mem_cons_of_mem b h)
        have hs1 : ∀ o ∈ (if s.quantity - matchedQty b s = 0 then ss
            else { s with quantity := s.quantity - matchedQty b s } :: ss),
            0 < o.quantity := by
          by_cases hz : s.quantity - matchedQty b s = 0
          · rw [if_pos hz]
            intro o ho
            exact hs o (List.mem_cons_of_mem s ho)
          · rw [if_neg hz]
            intro o ho
            rcases List.mem_cons.mp ho with h | h
            · rw [h]; dsimp only; omega
            · exact hs o (List.mem_cons_of_mem s h)
        have hrec := ih _ _ hb1 hs1
        simp only [crossLoop, if_pos hp]
        exact hrec
      · simp only [crossLoop, if_neg hp]
        exact ⟨hb, hs⟩

theorem crossLoop_shape (ticker : Int) :
    ∀ (n : Nat) (buys sells : List Order),
    ((crossLoop ticker n buys sells).2.1.length ≤ buys.length
      ∧ (crossLoop ticker n buys sells).2.2.length ≤ sells.length)
    ∧ (∀ o ∈ (crossLoop ticker n buys sells).2.1, ∃ b ∈ buys,
        o.price = b.price)
    ∧ (∀ o ∈ (crossLoop ticker n buys sells).2.2, ∃ s ∈ sells,
        o.price = s.price)
    ∧ (∀ t ∈ (crossLoop ticker n buys sells).1, ∃ s ∈ sells,
        t.price = s.price) := by
  intro n
  induction n with
  | zero =>
    intro buys sells
    match buys, sells with
    | [], sells =>
      refine ⟨⟨by simp [crossLoop], by simp [crossLoop]⟩, by simp [crossLoop], ?_, by simp [crossLoop]⟩
      intro o ho
      exact ⟨o, by simpa [crossLoop] using ho, rfl⟩
    | b :: bs, [] =>
      refine ⟨⟨by simp [crossLoop], by simp [crossLoop]⟩, ?_, by simp [crossLoop], by simp [crossLoop]⟩
      intro o ho
      exact ⟨o, by simpa [crossLoop] using ho, rfl⟩
    | b :: bs, s :: ss =>
      refine ⟨⟨by simp [crossLoop], by simp [crossLoop]⟩, ?_, ?_, by simp [crossLoop]⟩
      · intro o ho
        exact ⟨o, by simpa [crossLoop] using ho, rfl⟩
      · intro o ho
        exact ⟨o, by simpa [crossLoop] using ho, rfl⟩
  | succ n ih =>
    intro buys sells
    match buys, sells with
    | [], sells =>
      refine ⟨⟨by simp [crossLoop], by simp [crossLoop]⟩, by simp [crossLoop], ?_, by simp [crossLoop]⟩
      intro o ho
      exact ⟨o, by simpa [crossLoop] using ho, rfl⟩
    | b :: bs, [] =>
      refine ⟨⟨by simp [crossLoop], by simp [crossLoop]⟩, ?_, by simp [crossLoop], by simp [crossLoop]⟩
      intro o ho
      exact ⟨o, by simpa [crossLoop] using ho, rfl⟩
    | b :: bs, s :: ss =>
      by_cases hp : s.price ≤ b.price
      · obtain ⟨⟨l1, l2⟩, p1, p2, p3⟩ := ih
          (if b.quantity - matchedQty b s = 0 then bs
            else { b with quantity := b.quantity - matchedQty b s } :: bs)
          (if s.quantity - matchedQty b s = 0 then ss
            else { s with quantity := s.quantity - matchedQty b s } :: ss)
        have hlb : (if b.quantity - matchedQty b s = 0 then bs
            else { b with quantity := b.quantity - matchedQty b s } :: bs).length
            ≤ (b :: bs).length := by
          by_cases hz : b.quantity - matchedQty b s = 0
          · rw [if_pos hz]; simp
          · rw [if_neg hz]; simp
        have hls : (if s.quantity - matchedQty b s = 0 then ss
            else { s with quantity := s.quantity - matchedQty b s } :: ss).length
            ≤ (s :: ss).length := by
          by_cases hz : s.quantity - matchedQty b s = 0
          · rw [if_pos hz]; simp
          · rw [if_neg hz]; simp
        have hmb : ∀ o ∈ (if b.quantity - matchedQty b s = 0 then bs
            else { b with quantity := b.quantity - matchedQty b s } :: bs),
            ∃ b1 ∈ b :: bs, o.price = b1.price := by
          by_cases hz : b.quantity - matchedQty b s = 0
          · rw [if_pos hz]
            intro o ho
            exact ⟨o, List.mem_cons_of_mem b ho, rfl⟩
          · rw [if_neg hz]
            intro o ho
            rcases List.mem_cons.mp ho with h | h
            · exact ⟨b, List.mem_cons_self b bs, by rw [h]⟩
            · exact ⟨o, List.mem_cons_of_mem b h, rfl⟩
        have hms : ∀ o ∈ (if s.quantity - matchedQty b s = 0 then ss
            else { s with quantity := s.quantity - matchedQty b s } :: ss),
            ∃ s1 ∈ s :: ss, o.price = s1.price := by
          by_cases hz : s.quantity - matchedQty b s = 0
          · rw [if_pos hz]
            intro o ho
            exact ⟨o, List.mem_cons_of_mem s ho, rfl⟩
          · rw [if_neg hz]
            intro o ho
            rcases List.mem_cons.mp ho with h | h
            · exact ⟨s, List.mem_cons_self s ss, by rw [h]⟩
            · exact ⟨o, List.mem_cons_of_mem s h, rfl⟩
        simp only [crossLoop, if_pos hp]
        refine ⟨⟨le_trans l1 hlb |>.trans (by simp), le_trans l2 hls |>.trans (by simp)⟩, ?_, ?_, ?_⟩
        · intro o ho
          obtain ⟨b1, hb1, hpr⟩ := p1 o ho
          obtain ⟨b2, hb2, hpr2⟩ := hmb b1 hb1
          exact ⟨b2, hb2, by rw [hpr, hpr2]⟩
        · intro o ho
          obtain ⟨s1, hs1, hpr⟩ := p2 o ho
          obtain ⟨s2, hs2, hpr2⟩ := hms s1 hs1
          exact ⟨s2, hs2, by rw [hpr, hpr2]⟩
        · intro t ht
          rcases List.mem_cons.mp ht with h | h
          · exact ⟨s, List.mem_cons_self s ss, by rw [h]⟩
          · obtain ⟨s1, hs1, hpr⟩ := p3 t h
            obtain ⟨s2, hs2, hpr2⟩ := hms s1 hs1
            exact ⟨s2, hs2, by rw [hpr, hpr2]⟩
      · simp only [crossLoop, if_neg hp]
        refine ⟨⟨by simp, by simp⟩, ?_, ?_, by simp⟩
        · intro o ho
          exact ⟨o, ho, rfl⟩
        · intro o ho
          exact ⟨o, ho, rfl⟩

/-! Bucket-sort lemmas. -/

theorem mem_priceRange {p : Int} : p ∈ priceRange ↔ 10 ≤ p ∧ p ≤ 1000 := by
  simp only [priceRange, List.mem_map, List.mem_range]
  constructor
  · rintro ⟨k, hk, hkp⟩
    omega
  · rintro ⟨h1, h2⟩
    exact ⟨(p - 10).toNat, by omega, by omega⟩

theorem priceRange_nodup : priceRange.Nodup := by
  have h : Function.Injective (fun k : Nat => 10 + (k : Int)) := by
    intro a b hab
    simp only at hab
    omega
  exact List.Nodup.map h (List.nodup_range 991)

theorem mem_bucket_of_mem {ps : List Int} {l : List Order} {o : Order}
    (h : o ∈ ps.flatMap
      (fun p => l.filter (fun o => o.price == p && decide (0 < o.quantity)))) :
    o ∈ l ∧ 0 < o.quantity ∧ o.price ∈ ps := by
  simp only [List.mem_flatMap, List.mem_filter, Bool.and_eq_true, beq_iff_eq,
    decide_eq_true_eq] at h
  obtain ⟨p, hp, ⟨hol, hpr, hq⟩⟩ := h
  exact ⟨hol, hq, by rw [hpr]; exact hp⟩

theorem mem_bucketAsc {l : List Order} {o : Order} (h : o ∈ bucketAsc l) :
    o ∈ l ∧ 0 < o.quantity ∧ 10 ≤ o.price ∧ o.price ≤ 1000 := by
  obtain ⟨h1, h2, h3⟩ := mem_bucket_of_mem h
  exact ⟨h1, h2, mem_priceRange.mp h3⟩

theorem mem_bucketDesc {l : List Order} {o : Order} (h : o ∈ bucketDesc l) :
    o ∈ l ∧ 0 < o.quantity ∧ 10 ≤ o.price ∧ o.price ≤ 1000 := by
  obtain ⟨h1, h2, h3⟩ := mem_bucket_of_mem h
  rw [List.mem_reverse] at h3
  exact ⟨h1, h2, mem_priceRange.mp h3⟩

theorem bucket_perm (ps : List Int) : ∀ l : List Order, ps.Nodup →
    (∀ o ∈ l, 0 < o.quantity ∧ o.price ∈ ps) →
    List.Perm
      (ps.flatMap
        (fun p => l.filter (fun o => o.price == p && decide (0 < o.quantity))))
      l := by
  induction ps with
  | nil =>
    intro l _ hl
    have hnil : l = [] := by
      cases l with
      | nil => rfl
      | cons o l => exact absurd (hl o (List.mem_cons_self o l)).2 (List.not_mem_nil _)
    rw [hnil]
    simp
  | cons p ps ih =>
    intro l hnd hl
    have hndtail : ps.Nodup := (List.nodup_cons.mp hnd).2
    have hpnotin : p ∉ ps := (List.nodup_cons.mp hnd).1
    have hstep : List.flatMap (p :: ps)
        (fun p => l.filter (fun o => o.price == p && decide (0 < o.quantity)))
        = l.filter (fun o => o.price == p && decide (0 < o.quantity))
          ++ ps.flatMap
            (fun p => l.filter (fun o => o.price == p && decide (0 < o.quantity))) :=
      List.flatMap_cons ..
    rw [hstep]
    have hfirst : l.filter (fun o => o.price == p && decide (0 < o.quantity))
        = l.filter (fun o => o.price == p) := by
      apply List.filter_congr
      intro o ho
      have := (hl o ho).1
      simp [this]
    have hrest : ∀ p1 ∈ ps,
        l.filter (fun o => o.price == p1 && decide (0 < o.quantity))
        = (l.filter (fun o => !(o.price == p))).filter
            (fun o => o.price == p1 && decide (0 < o.quantity)) := by
      intro p1 hp1
      rw [List.filter_filter]
      apply List.filter_congr
      intro o ho
      have hne : p1 ≠ p := fun hcontra => hpnotin (hcontra ▸ hp1)
      by_cases hpr : o.price = p1
      · simp [hpr, hne]
      · simp [hpr]
    have hmapeq : ps.flatMap
        (fun p1 => l.filter (fun o => o.price == p1 && decide (0 < o.quantity)))
        = ps.flatMap
          (fun p1 => (l.filter (fun o => !(o.price == p))).filter
            (fun o => o.price == p1 && decide (0 < o.quantity))) :=
      List.flatMap_congr hrest
    rw [hmapeq, hfirst]
    have hsub : ∀ o ∈ l.filter (fun o => !(o.price == p)),
        0 < o.quantity ∧ o.price ∈ ps := by
      intro o ho
      obtain ⟨hol, hop⟩ := List.mem_filter.mp ho
      refine ⟨(hl o hol).1, ?_⟩
      have := (hl o hol).2
      simp only [Bool.not_eq_true', beq_eq_false_iff_ne] at hop
      rcases List.mem_cons.mp this with h | h
      · exact absurd h hop
      · exact h
    have hperm2 := ih (l.filter (fun o => !(o.price == p))) hndtail hsub
    exact List.Perm.trans (List.Perm.append_left _ hperm2)
      (List.filter_append_perm _ l)

theorem bucketAsc_perm (l : List Order)
    (hl : ∀ o ∈ l, 0 < o.quantity ∧ 10 ≤ o.price ∧ o.price ≤ 1000) :
    List.Perm (bucketAsc l) l := by
  apply bucket_perm priceRange l priceRange_nodup
  intro o ho
  obtain ⟨h1, h2, h3⟩ := hl o ho
  exact ⟨h1, mem_priceRange.mpr ⟨h2, h3⟩⟩

theorem bucketDesc_perm (l : List Order)
    (hl : ∀ o ∈ l, 0 < o.quantity ∧ 10 ≤ o.price ∧ o.price ≤ 1000) :
    List.Perm (bucketDesc l) l := by
  apply bucket_perm priceRange.reverse l (List.nodup_reverse.mpr priceRange_nodup)
  intro o ho
  obtain ⟨h1, h2, h3⟩ := hl o ho
  exact ⟨h1, List.mem_reverse.mpr (mem_priceRange.mpr ⟨h2, h3⟩)⟩

theorem sumQty_perm {l1 l2 : List Order} (h : List.Perm l1 l2) :
    sumQty l1 = sumQty l2 :=
  List.Perm.sum_eq (List.Perm.map _ h)

/-! Re-publish lemmas. -/

theorem republishQueue_eq (rs : List Order) : ∀ q : MinimalQueue,
    republishQueue q rs
      = enqueueAll q (rs.filter (fun o => decide (0 < o.quantity))) := by
  induction rs with
  | nil => intro q; rfl
  | cons o rs ih =>
    intro q
    by_cases h : 0 < o.quantity
    · have h1 : republishQueue q (o :: rs) = republishQueue ((enqueue q o).2) rs := by
        simp only [republishQueue, List.foldl_cons, if_pos h]
      have h2 : (o :: rs).filter (fun o => decide (0 < o.quantity))
          = o :: rs.filter (fun o => decide (0 < o.quantity)) := by
        simp [List.filter_cons, h]
      have h3 : enqueueAll q (o :: rs.filter (fun o => decide (0 < o.quantity)))
          = enqueueAll ((enqueue q o).2)
            (rs.filter (fun o => decide (0 < o.quantity))) := by
        simp only [enqueueAll, List.foldl_cons]
      rw [h1, h2, h3]
      exact ih _
    · have h1 : republishQueue q (o :: rs) = republishQueue q rs := by
        simp only [republishQueue, List.foldl_cons, if_neg h]
      have h2 : (o :: rs).filter (fun o => decide (0 < o.quantity))
          = rs.filter (fun o => decide (0 < o.quantity)) := by
        simp [List.filter_cons, h]
      rw [h1, h2]
      exact ih q

theorem republishQueue_full (q : MinimalQueue) (rs : List Order)
    (h : q.capacity ≤ occupancy q) : republishQueue q rs = q := by
  induction rs with
  | nil => rfl
  | cons o rs ih =>
    have hfail : (enqueue q o).2 = q := by
      have h2 : q.capacity ≤ q.tailReservation - q.head := h
      unfold enqueue
      rw [if_pos h2]
  -- the failed enqueue leaves the state unchanged, so the loop step is the identity
    simp only [republishQueue, List.foldl_cons] at ih ⊢
    by_cases hq : 0 < o.quantity
    · rw [if_pos hq, hfail]
      exact ih
    · rw [if_neg hq]
      exact ih

/-! Enqueue/dequeue run lemmas. -/

theorem runOps_spec (ops : List QueueOp) : ∀ q : MinimalQueue, SeqInv q →
    SeqInv (runOps q ops).1
    ∧ absList q ++ (runOps q ops).2.1
        = (runOps q ops).2.2 ++ absList (runOps q ops).1 := by
  induction ops with
  | nil =>
    intro q hq
    exact ⟨hq, by simp [runOps]⟩
  | cons op rest ih =>
    intro q hq
    cases op with
    | enq o =>
      by_cases hfull : q.capacity ≤ occupancy q
      · have henq : enqueue q o = (false, q) := by
          have h2 : q.capacity ≤ q.tailReservation - q.head := hfull
          unfold enqueue
          rw [if_pos h2]
        obtain ⟨i1, i2⟩ := ih q hq
        simp only [runOps, henq]
        exact ⟨i1, by simpa using i2⟩
      · obtain ⟨h1, h2, h3, -, -, -⟩ := absList_enqueue q o hq (by omega)
        obtain ⟨i1, i2⟩ := ih (enqueue q o).2 h3
        simp only [runOps, h1]
        refine ⟨i1, ?_⟩
        simp only [ite_true]
        rw [← List.append_assoc, ← h2]
        exact i2
    | deq =>
      by_cases hemp : q.head = q.tail
      · have hde : dequeue q = (none, q) := by
          unfold dequeue
          rw [if_pos hemp]
        obtain ⟨i1, i2⟩ := ih q hq
        simp only [runOps, hde]
        exact ⟨i1, by simpa using i2⟩
      · obtain ⟨h1, h2, h3, -, -, -, -⟩ := absList_dequeue q hq hemp
        obtain ⟨i1, i2⟩ := ih (dequeue q).2 h3
        refine ⟨by simpa only [runOps] using i1, ?_⟩
        simp only [runOps, h1]
        rw [h2]
        simpa using i2

/-! Counter-invariant helpers. -/

theorem counterInv_init (c : Nat) : counterInv (initQueue c) := by
  unfold counterInv initQueue
  exact ⟨le_refl 0, le_refl 0, by dsimp only; omega⟩

theorem counterInv_enqueue (q : MinimalQueue) (o : Order)
    (h : counterInv q) : counterInv (enqueue q o).2 := by
  obtain ⟨h1, h2, h3⟩ := h
  unfold enqueue
  by_cases hc : q.capacity ≤ q.tailReservation - q.head
  · rw [if_pos hc]
    exact ⟨h1, h2, h3⟩
  · rw [if_neg hc]
    unfold counterInv
    dsimp only
    omega

theorem counterInv_dequeue (q : MinimalQueue)
    (h : counterInv q) : counterInv (dequeue q).2 := by
  obtain ⟨h1, h2, h3⟩ := h
  unfold dequeue
  by_cases hc : q.head = q.tail
  · rw [if_pos hc]
    exact ⟨h1, h2, h3⟩
  · rw [if_neg hc]
    unfold counterInv
    dsimp only
    omega

theorem enqueue_full (q : MinimalQueue) (o : Order)
    (h : q.capacity ≤ occupancy q) : enqueue q o = (false, q) := by
  have h2 : q.capacity ≤ q.tailReservation - q.head := h
  unfold enqueue
  rw [if_pos h2]

theorem enqueueAll_occupancy (os : List Order) : ∀ q : MinimalQueue,
    counterInv q →
    occupancy (enqueueAll q os) = min (occupancy q + os.length) q.capacity
    ∧ counterInv (enqueueAll q os)
    ∧ (enqueueAll q os).capacity = q.capacity := by
  induction os with
  | nil =>
    intro q hq
    obtain ⟨h1, h2, h3⟩ := hq
    refine ⟨?_, ⟨h1, h2, h3⟩, rfl⟩
    show occupancy q = min (occupancy q + ([] : List Order).length) q.capacity
    unfold occupancy
    simp only [List.length_nil, Nat.add_zero]
    omega
  | cons o os ih =>
    intro q hq
    obtain ⟨h1, h2, h3⟩ := hq
    by_cases hc : q.capacity ≤ q.tailReservation - q.head
    · have henq : enqueue q o = (false, q) := by
        unfold enqueue
        rw [if_pos hc]
      have hstep : enqueueAll q (o :: os) = enqueueAll q os := by
        simp only [enqueueAll, List.foldl_cons, henq]
      rw [hstep]
      obtain ⟨i1, i2, i3⟩ := ih q ⟨h1, h2, h3⟩
      refine ⟨?_, i2, i3⟩
      rw [i1]
      unfold occupancy
      simp only [List.length_cons]
      omega
    · have henq : enqueue q o = (true,
          { q with
              orders := q.orders.set (q.tailReservation % q.capacity) o
              tailReservation := q.tailReservation + 1
              tail := q.tailReservation + 1 }) := by
        unfold enqueue
        rw [if_neg hc]
      have hstep : enqueueAll q (o :: os) = enqueueAll (enqueue q o).2 os := by
        simp only [enqueueAll, List.foldl_cons]
      rw [hstep, henq]
      have hinv2 : counterInv
          { q with
              orders := q.orders.set (q.tailReservation % q.capacity) o
              tailReservation := q.tailReservation + 1
              tail := q.tailReservation + 1 } := by
        unfold counterInv
        dsimp only
        omega
      obtain ⟨i1, i2, i3⟩ := ih _ hinv2
      refine ⟨?_, i2, i3⟩
      rw [i1]
      unfold occupancy
      dsimp only
      simp only [List.length_cons]
      omega

/-! Bucket length bound (no range assumption on the orders). -/

theorem bucket_length_le (ps : List Int) : ∀ l : List Order, ps.Nodup →
    (ps.flatMap
      (fun p => l.filter (fun o => o.price == p && decide (0 < o.quantity)))).length
    ≤ l.length := by
  induction ps with
  | nil =>
    intro l _
    simp
  | cons p ps ih =>
    intro l hnd
    have hndtail : ps.Nodup := (List.nodup_cons.mp hnd).2
    have hpnotin : p ∉ ps := (List.nodup_cons.mp hnd).1
    have hstep : List.flatMap (p :: ps)
        (fun p => l.filter (fun o => o.price == p && decide (0 < o.quantity)))
        = l.filter (fun o => o.price == p && decide (0 < o.quantity))
          ++ ps.flatMap
            (fun p => l.filter (fun o => o.price == p && decide (0 < o.quantity))) :=
      List.flatMap_cons ..
    rw [hstep]
    have hrest : ∀ p1 ∈ ps,
        l.filter (fun o => o.price == p1 && decide (0 < o.quantity))
        = (l.filter (fun o => !(o.price == p))).filter
            (fun o => o.price == p1 && decide (0 < o.quantity)) := by
      intro p1 hp1
      rw [List.filter_filter]
      apply List.filter_congr
      intro o ho
      have hne : p1 ≠ p := fun hcontra => hpnotin (hcontra ▸ hp1)
      by_cases hpr : o.price = p1
      · simp [hpr, hne]
      · simp [hpr]
    have hmapeq : ps.flatMap
        (fun p1 => l.filter (fun o => o.price == p1 && decide (0 < o.quantity)))
        = ps.flatMap
          (fun p1 => (l.filter (fun o => !(o.price == p))).filter
            (fun o => o.price == p1 && decide (0 < o.quantity))) :=
      List.flatMap_congr hrest
    rw [hmapeq]
    have hlen1 := ih (l.filter (fun o => !(o.price == p))) hndtail
    have hfle : (l.filter (fun o => o.price == p && decide (0 < o.quantity))).length
        ≤ (l.filter (fun o => o.price == p)).length := by
      have heq : l.filter (fun o => o.price == p && decide (0 < o.quantity))
          = (l.filter (fun o => o.price == p)).filter
              (fun o => decide (0 < o.quantity)) := by
        rw [List.filter_filter]
        apply List.filter_congr
        intro o _
        exact Bool.and_comm _ _
      rw [heq]
      exact List.length_filter_le _ _
    have hsplit : (l.filter (fun o => o.price == p)).length
        + (l.filter (fun o => !(o.price == p))).length = l.length := by
      have := List.Perm.length_eq
        (List.filter_append_perm (fun o => o.price == p) l)
      simpa using this
    rw [List.length_append]
    omega

theorem bucketDesc_length_le (l : List Order) :
    (bucketDesc l).length ≤ l.length :=
  bucket_length_le priceRange.reverse l (List.nodup_reverse.mpr priceRange_nodup)

theorem bucketAsc_length_le (l : List Order) :
    (bucketAsc l).length ≤ l.length :=
  bucket_length_le priceRange l priceRange_nodup

/-! The two paths of a matching pass. -/

theorem matchOrdersQ_empty_side (ticker : Int) (bq sq : MinimalQueue)
    (hb : SeqInv bq) (hs : SeqInv sq)
    (he : absList bq = [] ∨ absList sq = []) :
    matchOrdersQ ticker bq sq
      = ([], enqueueAll (drainQueue bq).2 (drainQueue bq).1,
          enqueueAll (drainQueue sq).2 (drainQueue sq).1) := by
  obtain ⟨bd1, -, -, -, -⟩ := drainQueue_spec bq hb
  obtain ⟨sd1, -, -, -, -⟩ := drainQueue_spec sq hs
  have hemp : ((drainQueue bq).1.isEmpty || (drainQueue sq).1.isEmpty) = true := by
    rw [bd1, sd1]
    rcases he with h | h
    · rw [h]
      simp
    · rw [h]
      simp
  unfold matchOrdersQ
  rw [if_pos hemp]

theorem matchOrdersQ_nonempty (ticker : Int) (bq sq : MinimalQueue)
    (hb : SeqInv bq) (hs : SeqInv sq)
    (hbne : absList bq ≠ []) (hsne : absList sq ≠ []) :
    matchOrdersQ ticker bq sq
      = ((crossLoop ticker
            ((bucketDesc (absList bq)).length + (bucketAsc (absList sq)).length)
            (bucketDesc (absList bq)) (bucketAsc (absList sq))).1,
         republishQueue (drainQueue bq).2
           (crossLoop ticker
             ((bucketDesc (absList bq)).length + (bucketAsc (absList sq)).length)
             (bucketDesc (absList bq)) (bucketAsc (absList sq))).2.1,
         republishQueue (drainQueue sq).2
           (crossLoop ticker
             ((bucketDesc (absList bq)).length + (bucketAsc (absList sq)).length)
             (bucketDesc (absList bq)) (bucketAsc (absList sq))).2.2) := by
  obtain ⟨bd1, -, -, -, -⟩ := drainQueue_spec bq hb
  obtain ⟨sd1, -, -, -, -⟩ := drainQueue_spec sq hs
  have hemp : ¬ (((drainQueue bq).1.isEmpty || (drainQueue sq).1.isEmpty) = true) := by
    rw [bd1, sd1]
    simp [hbne, hsne]
  unfold matchOrdersQ
  rw [if_neg hemp, bd1, sd1]

theorem republish_into_drained (qd : MinimalQueue) (rs : List Order)
    (hq : SeqInv qd) (hocc : occupancy qd = 0) (habs : absList qd = [])
    (hlen : rs.length ≤ qd.capacity) :
    absList (republishQueue qd rs)
      = rs.filter (fun o => decide (0 < o.quantity)) := by
  rw [republishQueue_eq]
  have hflen : (rs.filter (fun o => decide (0 < o.quantity))).length
      ≤ qd.capacity := le_trans (List.length_filter_le _ _) hlen
  obtain ⟨e1, -, -, -⟩ := absList_enqueueAll
    (rs.filter (fun o => decide (0 < o.quantity))) qd hq (by omega)
  rw [e1, habs]
  simp

/-! Claim theorems. -/

/-- C1: on the concrete scenario whose drained buys are
[(price 100, qty 20), (price 90, qty 10)] and drained sells
[(price 95, qty 15), (price 100, qty 25)], the pass emits exactly the
trades (qty 15, price 95) then (qty 5, price 100), each priced at the sell
order price, and afterwards the buy channel holds exactly
(price 90, qty 10) and the sell channel exactly (price 100, qty 20). -/
theorem crossing_example :
    (drainQueue buyQ0).1 = [⟨'B', 0, 20, 100⟩, ⟨'B', 0, 10, 90⟩]
    ∧ (drainQueue sellQ0).1 = [⟨'S', 0, 15, 95⟩, ⟨'S', 0, 25, 100⟩]
    ∧ (matchOrdersQ 0 buyQ0 sellQ0).1
        = [⟨0, 15, 95⟩, ⟨0, 5, 100⟩]
    ∧ absList (matchOrdersQ 0 buyQ0 sellQ0).2.1 = [⟨'B', 0, 10, 90⟩]
    ∧ absList (matchOrdersQ 0 buyQ0 sellQ0).2.2 = [⟨'S', 0, 20, 100⟩] := by
  exact ⟨by decide, by decide, by decide, by decide, by decide⟩

/-- C2: a sequential matching pass on channels whose orders all have
positive quantity and price in [10, 1000] conserves total quantity up to
matching: the total before minus the total after equals twice the total
matched quantity of the emitted trades. -/
theorem quantity_conservation (ticker : Int) (bq sq : MinimalQueue)
    (hb : SeqInv bq) (hs : SeqInv sq)
    (hall : ∀ o ∈ absList bq ++ absList sq,
      0 < o.quantity ∧ 10 ≤ o.price ∧ o.price ≤ 1000) :
    sumQty (absList bq) + sumQty (absList sq)
      - (sumQty (absList (matchOrdersQ ticker bq sq).2.1)
          + sumQty (absList (matchOrdersQ ticker bq sq).2.2))
      = 2 * sumTradeQty (matchOrdersQ ticker bq sq).1 := by
  obtain ⟨bd1, bd2, bd3, bd4, bd5⟩ := drainQueue_spec bq hb
  obtain ⟨sd1, sd2, sd3, sd4, sd5⟩ := drainQueue_spec sq hs
  have hblen : (absList bq).length ≤ bq.capacity := by
    obtain ⟨x1, x2, x3, x4⟩ := hb
    rw [absList_length]
    omega
  have hslen : (absList sq).length ≤ sq.capacity := by
    obtain ⟨x1, x2, x3, x4⟩ := hs
    rw [absList_length]
    omega
  have hempcase : (absList bq = [] ∨ absList sq = []) →
      sumQty (absList bq) + sumQty (absList sq)
        - (sumQty (absList (matchOrdersQ ticker bq sq).2.1)
            + sumQty (absList (matchOrdersQ ticker bq sq).2.2))
        = 2 * sumTradeQty (matchOrdersQ ticker bq sq).1 := by
    intro he
    have hmq := matchOrdersQ_empty_side ticker bq sq hb hs he
    rw [hmq]
    obtain ⟨e1, -, -, -⟩ := absList_enqueueAll (drainQueue bq).1 (drainQueue bq).2 bd2
      (by rw [bd5, bd4, bd1]; simpa using hblen)
    obtain ⟨f1, -, -, -⟩ := absList_enqueueAll (drainQueue sq).1 (drainQueue sq).2 sd2
      (by rw [sd5, sd4, sd1]; simpa using hslen)
    dsimp only
    rw [e1, f1, bd3, sd3, bd1, sd1]
    simp [sumTradeQty]
  by_cases hbne : absList bq = []
  · exact hempcase (Or.inl hbne)
  by_cases hsne : absList sq = []
  · exact hempcase (Or.inr hsne)
  have hmq := matchOrdersQ_nonempty ticker bq sq hb hs hbne hsne
  rw [hmq]
  dsimp only
  have hballpos : ∀ o ∈ absList bq, 0 < o.quantity ∧ 10 ≤ o.price ∧ o.price ≤ 1000 :=
    fun o ho => hall o (List.mem_append.mpr (Or.inl ho))
  have hsallpos : ∀ o ∈ absList sq, 0 < o.quantity ∧ 10 ≤ o.price ∧ o.price ≤ 1000 :=
    fun o ho => hall o (List.mem_append.mpr (Or.inr ho))
  have hpermb := bucketDesc_perm (absList bq) hballpos
  have hperms := bucketAsc_perm (absList sq) hsallpos
  have hposc := crossLoop_pos ticker
    ((bucketDesc (absList bq)).length + (bucketAsc (absList sq)).length)
    (bucketDesc (absList bq)) (bucketAsc (absList sq))
    (fun o ho => (mem_bucketDesc ho).2.1) (fun o ho => (mem_bucketAsc ho).2.1)
  have hshape := crossLoop_shape ticker
    ((bucketDesc (absList bq)).length + (bucketAsc (absList sq)).length)
    (bucketDesc (absList bq)) (bucketAsc (absList sq))
  have hrb := republish_into_drained (drainQueue bq).2
    (crossLoop ticker
      ((bucketDesc (absList bq)).length + (bucketAsc (absList sq)).length)
      (bucketDesc (absList bq)) (bucketAsc (absList sq))).2.1 bd2 bd5 bd3
    (le_trans hshape.1.1 (le_trans (le_of_eq hpermb.length_eq)
      (by rw [bd4]; exact hblen)))
  have hrs := republish_into_drained (drainQueue sq).2
    (crossLoop ticker
      ((bucketDesc (absList bq)).length + (bucketAsc (absList sq)).length)
      (bucketDesc (absList bq)) (bucketAsc (absList sq))).2.2 sd2 sd5 sd3
    (le_trans hshape.1.2 (le_trans (le_of_eq hperms.length_eq)
      (by rw [sd4]; exact hslen)))
  have hrbf : (crossLoop ticker
      ((bucketDesc (absList bq)).length + (bucketAsc (absList sq)).length)
      (bucketDesc (absList bq)) (bucketAsc (absList sq))).2.1.filter
        (fun o => decide (0 < o.quantity))
      = (crossLoop ticker
        ((bucketDesc (absList bq)).length + (bucketAsc (absList sq)).length)
        (bucketDesc (absList bq)) (bucketAsc (absList sq))).2.1 :=
    List.filter_eq_self.mpr (fun o ho => by simpa using hposc.1 o ho)
  have hrsf : (crossLoop ticker
      ((bucketDesc (absList bq)).length + (bucketAsc (absList sq)).length)
      (bucketDesc (absList bq)) (bucketAsc (absList sq))).2.2.filter
        (fun o => decide (0 < o.quantity))
      = (crossLoop ticker
        ((bucketDesc (absList bq)).length + (bucketAsc (absList sq)).length)
        (bucketDesc (absList bq)) (bucketAsc (absList sq))).2.2 :=
    List.filter_eq_self.mpr (fun o ho => by simpa using hposc.2 o ho)
  rw [hrb, hrs, hrbf, hrsf]
  have hcons := crossLoop_conserve ticker
    ((bucketDesc (absList bq)).length + (bucketAsc (absList sq)).length)
    (bucketDesc (absList bq)) (bucketAsc (absList sq))
  rw [sumQty_perm hpermb, sumQty_perm hperms] at hcons
  omega

/-- C2 witness at a concrete crossing scenario: one buy of 20 at 100 and
one sell of 15 at 95. -/
theorem quantity_conservation_witness :
    SeqInv buyQ2 ∧ SeqInv sellQ2
    ∧ (∀ o ∈ absList buyQ2 ++ absList sellQ2,
        0 < o.quantity ∧ 10 ≤ o.price ∧ o.price ≤ 1000)
    ∧ sumQty (absList buyQ2) + sumQty (absList sellQ2)
        - (sumQty (absList (matchOrdersQ 0 buyQ2 sellQ2).2.1)
            + sumQty (absList (matchOrdersQ 0 buyQ2 sellQ2).2.2))
        = 2 * sumTradeQty (matchOrdersQ 0 buyQ2 sellQ2).1 :=
  ⟨by decide, by decide, by decide,
    quantity_conservation 0 buyQ2 sellQ2 (by decide) (by decide) (by decide)⟩

/-- C3 counterexample: `addOrder` accepts an order with non-positive
quantity — the invalid order enters the buy channel rather than being
rejected before any channel interaction. -/
theorem invalid_order_not_rejected_cex :
    absList ((addOrder initOrderBook 'B' 0 (-3) 50).2.buyQueues 0)
      = [⟨'B', 0, -3, 50⟩]
    ∧ (addOrder initOrderBook 'B' 0 (-3) 50).1 = Report.added := by
  exact ⟨by decide, by decide⟩

/-- C3 amended: the submission entry point performs no validation of
ticker, quantity, or price: a type B or S order aimed at a channel with a
free slot is enqueued unchanged even when its quantity is non-positive or
its price lies outside [10, 1000]. -/
theorem invalid_order_enters_channel (book : OrderBook) (t quantity price : Int)
    (hinv : quantity ≤ 0 ∨ price < 10 ∨ 1000 < price)
    (hqb : SeqInv (book.buyQueues t))
    (hltb : occupancy (book.buyQueues t) < (book.buyQueues t).capacity)
    (hqs : SeqInv (book.sellQueues t))
    (hlts : occupancy (book.sellQueues t) < (book.sellQueues t).capacity) :
    absList ((addOrder book 'B' t quantity price).2.buyQueues t)
      = absList (book.buyQueues t) ++ [⟨'B', t, quantity, price⟩]
    ∧ absList ((addOrder book 'S' t quantity price).2.sellQueues t)
      = absList (book.sellQueues t) ++ [⟨'S', t, quantity, price⟩] := by
  constructor
  · obtain ⟨-, habs, -, -, -, -⟩ :=
      absList_enqueue (book.buyQueues t) ⟨'B', t, quantity, price⟩ hqb hltb
    unfold addOrder
    rw [if_pos rfl]
    dsimp only
    rw [if_pos rfl]
    exact habs
  · obtain ⟨-, habs, -, -, -, -⟩ :=
      absList_enqueue (book.sellQueues t) ⟨'S', t, quantity, price⟩ hqs hlts
    unfold addOrder
    rw [if_neg (by decide : ¬ ('S' : Char) = 'B'), if_pos rfl]
    dsimp only
    rw [if_pos rfl]
    exact habs

/-- C3 amended witness: a buy with quantity -3 enters the fresh book. -/
theorem invalid_order_enters_channel_witness :
    ((-3 : Int) ≤ 0 ∨ (50 : Int) < 10 ∨ (1000 : Int) < 50)
    ∧ SeqInv (initOrderBook.buyQueues 0)
    ∧ occupancy (initOrderBook.buyQueues 0) < (initOrderBook.buyQueues 0).capacity
    ∧ absList ((addOrder initOrderBook 'B' 0 (-3) 50).2.buyQueues 0)
      = absList (initOrderBook.buyQueues 0) ++ [⟨'B', 0, -3, 50⟩] :=
  ⟨by decide, by decide, by decide,
    (invalid_order_enters_channel initOrderBook 0 (-3) 50 (by decide) (by decide)
      (by decide) (by decide) (by decide)).1⟩

/-- C4: starting from any state satisfying the counter chain, after
`capacity` enqueue calls the next call returns false; occupancy never
exceeds capacity along any enqueue-only run; and a failed enqueue leaves
the channel completely unchanged. -/
theorem capacity_bound (q : MinimalQueue) (os : List Order) (o : Order)
    (hq : counterInv q) (hlen : os.length = q.capacity) :
    (enqueue (enqueueAll q os) o).1 = false
    ∧ (∀ p : List Order, occupancy (enqueueAll q p) ≤ q.capacity)
    ∧ (∀ (q1 : MinimalQueue) (o1 : Order),
        (enqueue q1 o1).1 = false → (enqueue q1 o1).2 = q1) := by
  obtain ⟨i1, i2, i3⟩ := enqueueAll_occupancy os q hq
  refine ⟨?_, ?_, ?_⟩
  · have hocc : occupancy (enqueueAll q os) = q.capacity := by
      rw [i1, hlen]
      omega
    have hfull := enqueue_full (enqueueAll q os) o (i3.trans hocc.symm).le
    rw [hfull]
  · intro p
    obtain ⟨j1, -, -⟩ := enqueueAll_occupancy p q hq
    rw [j1]
    omega
  · exact fun q1 o1 h => enqueue_fail q1 o1 h

/-- C4 witness at capacity 2: the third call fails. -/
theorem capacity_bound_witness :
    counterInv (initQueue 2)
    ∧ ([defaultOrder, defaultOrder] : List Order).length = (initQueue 2).capacity
    ∧ (enqueue (enqueueAll (initQueue 2) [defaultOrder, defaultOrder])
        defaultOrder).1 = false :=
  ⟨by decide, by decide,
    (capacity_bound (initQueue 2) [defaultOrder, defaultOrder] defaultOrder
      (by decide) (by decide)).1⟩

/-- C5: over any sequential run of enqueue and dequeue operations from a
fresh channel, the items dequeued during the run followed by the items
obtained by draining the final state equal, in order, exactly the items
whose enqueue returned true: nothing accepted is lost, duplicated, or
reordered. -/
theorem queue_no_loss_no_reorder (cap : Nat) (ops : List QueueOp) :
    (runOps (initQueue cap) ops).2.2
      ++ (drainQueue (runOps (initQueue cap) ops).1).1
    = (runOps (initQueue cap) ops).2.1 := by
  have hinit : SeqInv (initQueue cap) := by
    unfold SeqInv initQueue
    exact ⟨le_refl 0, rfl, by dsimp only; omega, by simp⟩
  obtain ⟨h1, h2⟩ := runOps_spec ops (initQueue cap) hinit
  obtain ⟨d1, -, -, -, -⟩ := drainQueue_spec _ h1
  rw [d1]
  have habs : absList (initQueue cap) = [] := by
    unfold absList initQueue
    simp
  rw [habs] at h2
  simpa using h2.symm

/-- C6: when one side of the ticker drains empty, the pass emits no trade,
the channel contents of both sides of that ticker are unchanged (same
orders, quantities, prices, in the original dequeue order), and every
other channel of the book is untouched. -/
theorem empty_side_noop (book : OrderBook) (ticker : Int)
    (hb : SeqInv (book.buyQueues ticker)) (hs : SeqInv (book.sellQueues ticker))
    (he : absList (book.buyQueues ticker) = []
      ∨ absList (book.sellQueues ticker) = []) :
    (matchOrders book ticker).1 = []
    ∧ absList ((matchOrders book ticker).2.buyQueues ticker)
        = absList (book.buyQueues ticker)
    ∧ absList ((matchOrders book ticker).2.sellQueues ticker)
        = absList (book.sellQueues ticker)
    ∧ (∀ t : Int, t ≠ ticker →
        (matchOrders book ticker).2.buyQueues t = book.buyQueues t
        ∧ (matchOrders book ticker).2.sellQueues t = book.sellQueues t) := by
  obtain ⟨bd1, bd2, bd3, bd4, bd5⟩ := drainQueue_spec (book.buyQueues ticker) hb
  obtain ⟨sd1, sd2, sd3, sd4, sd5⟩ := drainQueue_spec (book.sellQueues ticker) hs
  have hblen : (absList (book.buyQueues ticker)).length
      ≤ (book.buyQueues ticker).capacity := by
    obtain ⟨x1, x2, x3, x4⟩ := hb
    rw [absList_length]
    omega
  have hslen : (absList (book.sellQueues ticker)).length
      ≤ (book.sellQueues ticker).capacity := by
    obtain ⟨x1, x2, x3, x4⟩ := hs
    rw [absList_length]
    omega
  have hmq := matchOrdersQ_empty_side ticker _ _ hb hs he
  have htr : (matchOrders book ticker).1
      = (matchOrdersQ ticker (book.buyQueues ticker)
          (book.sellQueues ticker)).1 := rfl
  have hbch : (matchOrders book ticker).2.buyQueues ticker
      = (matchOrdersQ ticker (book.buyQueues ticker)
          (book.sellQueues ticker)).2.1 := by
    unfold matchOrders
    dsimp only
    rw [if_pos rfl]
  have hsch : (matchOrders book ticker).2.sellQueues ticker
      = (matchOrdersQ ticker (book.buyQueues ticker)
          (book.sellQueues ticker)).2.2 := by
    unfold matchOrders
    dsimp only
    rw [if_pos rfl]
  obtain ⟨e1, -, -, -⟩ := absList_enqueueAll (drainQueue (book.buyQueues ticker)).1
    (drainQueue (book.buyQueues ticker)).2 bd2
    (by rw [bd5, bd4, bd1]; simpa using hblen)
  obtain ⟨f1, -, -, -⟩ := absList_enqueueAll (drainQueue (book.sellQueues ticker)).1
    (drainQueue (book.sellQueues ticker)).2 sd2
    (by rw [sd5, sd4, sd1]; simpa using hslen)
  refine ⟨?_, ?_, ?_, ?_⟩
  · rw [htr, hmq]
  · rw [hbch, hmq]
    dsimp only
    rw [e1, bd3, bd1]
    simp
  · rw [hsch, hmq]
    dsimp only
    rw [f1, sd3, sd1]
    simp
  · intro t ht
    constructor
    · unfold matchOrders
      dsimp only
      rw [if_neg ht]
    · unfold matchOrders
      dsimp only
      rw [if_neg ht]

/-- C6 witness: a book holding one sell order and no buy order at
ticker 0. -/
theorem empty_side_noop_witness :
    SeqInv (book1.buyQueues 0) ∧ SeqInv (book1.sellQueues 0)
    ∧ (absList (book1.buyQueues 0) = [] ∨ absList (book1.sellQueues 0) = [])
    ∧ (matchOrders book1 0).1 = []
    ∧ absList ((matchOrders book1 0).2.sellQueues 0)
        = absList (book1.sellQueues 0) :=
  ⟨by decide, by decide, by decide,
    (empty_side_noop book1 0 (by decide) (by decide) (by decide)).1,
    (empty_side_noop book1 0 (by decide) (by decide) (by decide)).2.2.1⟩

/-- C7 counterexample: a re-enqueue that fails because the channel is full
swallows the order with no trace at all: the enqueue reports false, the
re-publish loop returns the channel bit-for-bit unchanged, and the dropped
order is in no channel afterwards — nothing is counted, logged, or
returned about the loss. -/
theorem reenqueue_loss_silent_cex :
    (enqueue fullQ ⟨'B', 0, 5, 50⟩).1 = false
    ∧ republishQueue fullQ [⟨'B', 0, 5, 50⟩] = fullQ
    ∧ (⟨'B', 0, 5, 50⟩ : Order) ∉ absList fullQ := by
  exact ⟨by decide, by decide, by decide⟩

/-- C7 amended: when the channel is full at re-publish time, every
remainder order is silently dropped: each enqueue fails, the channel state
is returned exactly unchanged, and the pass produces no count, log entry,
or return value recording the loss (its only outputs are the trade list
and the channel states). -/
theorem republish_full_drops_silently (q : MinimalQueue) (rs : List Order)
    (h : q.capacity ≤ occupancy q) :
    republishQueue q rs = q
    ∧ ∀ o : Order, enqueue q o = (false, q) :=
  ⟨republishQueue_full q rs h, fun o => enqueue_full q o h⟩

/-- C7 amended witness: the full channel drops a remainder order with no
state change. -/
theorem republish_full_drops_silently_witness :
    fullQ.capacity ≤ occupancy fullQ
    ∧ republishQueue fullQ [⟨'B', 0, 5, 50⟩] = fullQ :=
  ⟨by decide,
    (republish_full_drops_silently fullQ [⟨'B', 0, 5, 50⟩] (by decide)).1⟩

/-- C8: the counter chain head ≤ tail ≤ reserved ≤ head + capacity holds
after initialization and is preserved by every enqueue and every
dequeue. -/
theorem counter_invariant (c : Nat) (q : MinimalQueue) (o : Order) :
    counterInv (initQueue c)
    ∧ (counterInv q → counterInv (enqueue q o).2)
    ∧ (counterInv q → counterInv (dequeue q).2) :=
  ⟨counterInv_init c, counterInv_enqueue q o, counterInv_dequeue q⟩

/-- C8 witness at capacity 4. -/
theorem counter_invariant_witness :
    counterInv (initQueue 4)
    ∧ counterInv (enqueue (initQueue 4) defaultOrder).2
    ∧ counterInv (dequeue (initQueue 4)).2 :=
  ⟨(counter_invariant 4 (initQueue 4) defaultOrder).1,
    (counter_invariant 4 (initQueue 4) defaultOrder).2.1 (by decide),
    (counter_invariant 4 (initQueue 4) defaultOrder).2.2 (by decide)⟩

/-- C9: an order whose type tag is neither B nor S changes no channel and
is reported through the same queue-full line used for dropped orders, even
though no queue was full. -/
theorem unknown_type_reported_as_full (book : OrderBook) (c : Char)
    (ticker quantity price : Int) (hb : c ≠ 'B') (hs : c ≠ 'S') :
    addOrder book c ticker quantity price = (Report.queueFull, book) := by
  unfold addOrder
  rw [if_neg hb, if_neg hs]

/-- C9 witness with type tag X. -/
theorem unknown_type_reported_as_full_witness :
    ('X' ≠ 'B') ∧ ('X' ≠ 'S')
    ∧ addOrder initOrderBook 'X' 1 5 50 = (Report.queueFull, initOrderBook) :=
  ⟨by decide, by decide,
    unknown_type_reported_as_full initOrderBook 'X' 1 5 50 (by decide) (by decide)⟩

/-- C10: in a pass where both sides drained non-empty, any drained order
with price outside [10, 1000] or non-positive quantity is absent from both
sorted arrays and from both resulting channels, and every emitted trade is
priced inside [10, 1000]: the order disappears with no trade at its price
and no error report (the pass returns only trades). -/
theorem out_of_range_silently_dropped (ticker : Int) (bq sq : MinimalQueue)
    (o : Order) (hb : SeqInv bq) (hs : SeqInv sq)
    (hbne : absList bq ≠ []) (hsne : absList sq ≠ [])
    (ho : o ∈ absList bq ++ absList sq)
    (hbad : o.price < 10 ∨ 1000 < o.price ∨ o.quantity ≤ 0) :
    o ∉ bucketDesc (absList bq)
    ∧ o ∉ bucketAsc (absList sq)
    ∧ o ∉ absList (matchOrdersQ ticker bq sq).2.1
    ∧ o ∉ absList (matchOrdersQ ticker bq sq).2.2
    ∧ (∀ tr ∈ (matchOrdersQ ticker bq sq).1,
        10 ≤ tr.price ∧ tr.price ≤ 1000) := by
  obtain ⟨bd1, bd2, bd3, bd4, bd5⟩ := drainQueue_spec bq hb
  obtain ⟨sd1, sd2, sd3, sd4, sd5⟩ := drainQueue_spec sq hs
  have hblen : (absList bq).length ≤ bq.capacity := by
    obtain ⟨x1, x2, x3, x4⟩ := hb
    rw [absList_length]
    omega
  have hslen : (absList sq).length ≤ sq.capacity := by
    obtain ⟨x1, x2, x3, x4⟩ := hs
    rw [absList_length]
    omega
  have hmq := matchOrdersQ_nonempty ticker bq sq hb hs hbne hsne
  have hshape := crossLoop_shape ticker
    ((bucketDesc (absList bq)).length + (bucketAsc (absList sq)).length)
    (bucketDesc (absList bq)) (bucketAsc (absList sq))
  have hrb := republish_into_drained (drainQueue bq).2
    (crossLoop ticker
      ((bucketDesc (absList bq)).length + (bucketAsc (absList sq)).length)
      (bucketDesc (absList bq)) (bucketAsc (absList sq))).2.1 bd2 bd5 bd3
    (le_trans hshape.1.1 (le_trans (bucketDesc_length_le _)
      (by rw [bd4]; exact hblen)))
  have hrs := republish_into_drained (drainQueue sq).2
    (crossLoop ticker
      ((bucketDesc (absList bq)).length + (bucketAsc (absList sq)).length)
      (bucketDesc (absList bq)) (bucketAsc (absList sq))).2.2 sd2 sd5 sd3
    (le_trans hshape.1.2 (le_trans (bucketAsc_length_le _)
      (by rw [sd4]; exact hslen)))
  refine ⟨?_, ?_, ?_, ?_, ?_⟩
  · intro hmem
    obtain ⟨-, h2, h3, h4⟩ := mem_bucketDesc hmem
    omega
  · intro hmem
    obtain ⟨-, h2, h3, h4⟩ := mem_bucketAsc hmem
    omega
  · rw [hmq]
    dsimp only
    rw [hrb]
    intro hmem
    obtain ⟨hmem1, hqpos⟩ := List.mem_filter.mp hmem
    have hqq : 0 < o.quantity := by simpa using hqpos
    obtain ⟨b1, hb1, hpr⟩ := hshape.2.1 o hmem1
    obtain ⟨-, -, hp1, hp2⟩ := mem_bucketDesc hb1
    omega
  · rw [hmq]
    dsimp only
    rw [hrs]
    intro hmem
    obtain ⟨hmem1, hqpos⟩ := List.mem_filter.mp hmem
    have hqq : 0 < o.quantity := by simpa using hqpos
    obtain ⟨s1, hs1, hpr⟩ := hshape.2.2.1 o hmem1
    obtain ⟨-, -, hp1, hp2⟩ := mem_bucketAsc hs1
    omega
  · rw [hmq]
    dsimp only
    intro tr htr
    obtain ⟨s1, hs1, hpr⟩ := hshape.2.2.2 tr htr
    obtain ⟨-, -, hp1, hp2⟩ := mem_bucketAsc hs1
    omega

/-- C10 witness: a buy priced at 5 (below the bucket range) vanishes from
a pass in which both sides are non-empty. -/
theorem out_of_range_silently_dropped_witness :
    SeqInv buyQ3 ∧ SeqInv sellQ3
    ∧ absList buyQ3 ≠ [] ∧ absList sellQ3 ≠ []
    ∧ (⟨'B', 0, 7, 5⟩ : Order) ∈ absList buyQ3 ++ absList sellQ3
    ∧ ((⟨'B', 0, 7, 5⟩ : Order).price < 10
        ∨ 1000 < (⟨'B', 0, 7, 5⟩ : Order).price
        ∨ (⟨'B', 0, 7, 5⟩ : Order).quantity ≤ 0)
    ∧ (⟨'B', 0, 7, 5⟩ : Order) ∉ bucketDesc (absList buyQ3)
    ∧ (⟨'B', 0, 7, 5⟩ : Order) ∉ absList (matchOrdersQ 0 buyQ3 sellQ3).2.1 :=
  ⟨by decide, by decide, by decide, by decide, by decide, by decide,
    (out_of_range_silently_dropped 0 buyQ3 sellQ3 ⟨'B', 0, 7, 5⟩ (by decide)
      (by decide) (by decide) (by decide) (by decide) (by decide)).1,
    (out_of_range_silently_dropped 0 buyQ3 sellQ3 ⟨'B', 0, 7, 5⟩ (by decide)
      (by decide) (by decide) (by decide) (by decide) (by decide)).2.2.1⟩

end LockFreeStocks
